import Mathlib

/-!
Shallow embedding of `src/packages/jstack/src/server/io.ts` — the `IO` class,
a room-scoped pub/sub relay over a Redis-like backing store.

Modelling choices:
* The backing store is external; its two primitives are passed in as oracles:
  `pub : String → String → Except ε Unit` for `redis.publish` and
  `smem : String → Except ε (List String)` for `redis.smembers`.  A throwing
  store call is an `Except.error` result.
* The mutable instance state (`targetRoom`, `prefix`) is the `Relay` structure,
  threaded explicitly; method results also record the publish calls made and the
  `logger` diagnostics signalled, so the theorems can speak about effects.
* JavaScript truthiness matters twice in the source: `if (!this.targetRoom)`
  treats the empty string like `null`, and `options.prefix || "io"` treats the
  empty string like an absent option.  Both are embedded as explicit `= ""`
  tests next to the `Option` match.
* `JSON.stringify([event, data])` is embedded by a JSON value type `JVal`
  (numbers as integers) with a character-list serializer that mirrors
  the output of `JSON.stringify` (no whitespace, short escapes `\" \\ \b \f \n \r \t`,
  `\u00XX` for the remaining control characters), plus a strict parser used to
  state the decode round-trip.
-/

namespace JStack

/-- A JSON-representable value: the payloads `JSON.stringify` can frame
(numbers restricted to integers). -/
inductive JVal where
  | null
  | bool (b : Bool)
  | num (n : Int)
  | str (s : String)
  | arr (elems : List JVal)
  | obj (members : List (String × JVal))

/-- Lower-case hexadecimal digit character for `n < 16`. -/
def hexChar (n : Nat) : Char :=
  if n < 10 then Char.ofNat (48 + n) else Char.ofNat (87 + n)

/-- How `JSON.stringify` writes one character inside a string literal: short
escapes for quote, backslash and the five named control characters, `\u00XX`
for the other control characters, the character itself otherwise. -/
def jescape (c : Char) : List Char :=
  if c = '"' then ['\\', '"']
  else if c = '\\' then ['\\', '\\']
  else if c = '\x08' then ['\\', 'b']
  else if c = '\x0c' then ['\\', 'f']
  else if c = '\n' then ['\\', 'n']
  else if c = '\r' then ['\\', 'r']
  else if c = '\t' then ['\\', 't']
  else if c.toNat < 32 then
    ['\\', 'u', '0', '0', hexChar (c.toNat / 16), hexChar (c.toNat % 16)]
  else [c]

/-- A JSON string literal: quote, escaped body, quote. -/
def jstrLit (s : String) : List Char :=
  '"' :: ((s.data.flatMap jescape) ++ ['"'])

/-- The decimal digit character for `d < 10`. -/
def digitChar (d : Nat) : Char := Char.ofNat (48 + d)

/-- Decimal digit characters of a natural number, most significant first. -/
def natChars (n : Nat) : List Char :=
  if n = 0 then ['0'] else (Nat.digits 10 n).reverse.map digitChar

/-- Decimal characters of an integer, with a leading minus sign if negative. -/
def intChars (n : Int) : List Char :=
  if n < 0 then '-' :: natChars n.natAbs else natChars n.natAbs

mutual

/-- Characters `JSON.stringify` produces for a value (it emits no whitespace). -/
def jvalChars : JVal → List Char
  | .null => "null".data
  | .bool true => "true".data
  | .bool false => "false".data
  | .num n => intChars n
  | .str s => jstrLit s
  | .arr es => '[' :: (arrChars es ++ [']'])
  | .obj ms => '\x7b' :: (objChars ms ++ ['\x7d'])

/-- Comma-separated renderings of array elements (without the brackets). -/
def arrChars : List JVal → List Char
  | [] => []
  | [v] => jvalChars v
  | v :: w :: vs => jvalChars v ++ ',' :: arrChars (w :: vs)

/-- Comma-separated `"key":value` renderings of object members. -/
def objChars : List (String × JVal) → List Char
  | [] => []
  | [(k, v)] => jstrLit k ++ ':' :: jvalChars v
  | (k, v) :: m :: ms => jstrLit k ++ ':' :: jvalChars v ++ ',' :: objChars (m :: ms)

end

/-- The embedding of `JSON.stringify` on `JVal`. -/
def stringify (v : JVal) : String := ⟨jvalChars v⟩

/-- Numeric value of a hexadecimal digit character, if it is one. -/
def hexVal (c : Char) : Option Nat :=
  if '0' ≤ c ∧ c ≤ '9' then some (c.toNat - 48)
  else if 'a' ≤ c ∧ c ≤ 'f' then some (c.toNat - 87)
  else if 'A' ≤ c ∧ c ≤ 'F' then some (c.toNat - 55)
  else none

/-- The character a single-character JSON escape `\c` stands for, if valid. -/
def unesc (c : Char) : Option Char :=
  if c = '"' then some '"'
  else if c = '\\' then some '\\'
  else if c = '/' then some '/'
  else if c = 'b' then some '\x08'
  else if c = 'f' then some '\x0c'
  else if c = 'n' then some '\n'
  else if c = 'r' then some '\r'
  else if c = 't' then some '\t'
  else none

/-- Decode the body of a JSON string literal after its opening quote, undoing
escapes; yields the decoded characters and the input after the closing quote. -/
def strBody : List Char → Option (List Char × List Char)
  | [] => none
  | '"' :: r => some ([], r)
  | '\\' :: 'u' :: a :: b :: c :: d :: r =>
      match hexVal a, hexVal b, hexVal c, hexVal d with
      | some va, some vb, some vc, some vd =>
          (strBody r).map fun p =>
            (Char.ofNat (((va * 16 + vb) * 16 + vc) * 16 + vd) :: p.1, p.2)
      | _, _, _, _ => none
  | '\\' :: e :: r =>
      match unesc e with
      | some ch => (strBody r).map fun p => (ch :: p.1, p.2)
      | none => none
  | c :: r => (strBody r).map fun p => (c :: p.1, p.2)

/-- Is this a decimal digit character? -/
def isDig (c : Char) : Bool := 48 ≤ c.toNat && c.toNat ≤ 57

/-- Split off the longest leading run of decimal digit characters. -/
def digSpan : List Char → List Char × List Char
  | [] => ([], [])
  | c :: r =>
      if isDig c then
        let p := digSpan r
        (c :: p.1, p.2)
      else ([], c :: r)

/-- Numeric value of a digit-character run, most significant digit first. -/
def digsVal (ds : List Char) : Nat :=
  Nat.ofDigits 10 (ds.map (fun c => c.toNat - 48)).reverse

/-- Parse a nonempty leading run of decimal digits as a natural number. -/
def natSpan (cs : List Char) : Option (Nat × List Char) :=
  match digSpan cs with
  | ([], _) => none
  | (ds, r) => some (digsVal ds, r)

/-- Input that cannot extend a decimal number: empty, or starting with a
non-digit.  Every position a serialized number can end at qualifies. -/
def numStop : List Char → Bool
  | [] => true
  | c :: _ => !(isDig c)

mutual

/-- Strict JSON parser, structural on a fuel counter: accepts exactly the
whitespace-free grammar `jvalChars` emits and returns the parsed value
together with the unconsumed input.  Dispatch is on the first character. -/
def jvalP : Nat → List Char → Option (JVal × List Char)
  | 0, _ => none
  | _ + 1, [] => none
  | fuel + 1, c :: r =>
      if c = 'n' then
        match r with
        | 'u' :: 'l' :: 'l' :: r2 => some (.null, r2)
        | _ => none
      else if c = 't' then
        match r with
        | 'r' :: 'u' :: 'e' :: r2 => some (.bool true, r2)
        | _ => none
      else if c = 'f' then
        match r with
        | 'a' :: 'l' :: 's' :: 'e' :: r2 => some (.bool false, r2)
        | _ => none
      else if c = '"' then
        (strBody r).map fun p => (.str ⟨p.1⟩, p.2)
      else if c = '[' then
        match r with
        | ']' :: r2 => some (.arr [], r2)
        | _ => (arrP fuel r).map fun p => (.arr p.1, p.2)
      else if c = '\x7b' then
        match r with
        | '\x7d' :: r2 => some (.obj [], r2)
        | _ => (objP fuel r).map fun p => (.obj p.1, p.2)
      else if c = '-' then
        (natSpan r).map fun p => (.num (-(p.1 : Int)), p.2)
      else
        (natSpan (c :: r)).map fun p => (.num (p.1 : Int), p.2)

/-- One or more comma-separated array elements, consuming the closing `]`. -/
def arrP : Nat → List Char → Option (List JVal × List Char)
  | 0, _ => none
  | fuel + 1, cs =>
      match jvalP fuel cs with
      | none => none
      | some (v, r) =>
          match r with
          | ',' :: r2 => (arrP fuel r2).map fun p => (v :: p.1, p.2)
          | ']' :: r2 => some ([v], r2)
          | _ => none

/-- One or more comma-separated `"key":value` members, consuming the `}`. -/
def objP : Nat → List Char → Option (List (String × JVal) × List Char)
  | 0, _ => none
  | fuel + 1, cs =>
      match cs with
      | '"' :: r =>
          match strBody r with
          | none => none
          | some (k, r1) =>
              match r1 with
              | ':' :: r2 =>
                  match jvalP fuel r2 with
                  | none => none
                  | some (v, r3) =>
                      match r3 with
                      | ',' :: r4 => (objP fuel r4).map fun p => ((⟨k⟩, v) :: p.1, p.2)
                      | '\x7d' :: r4 => some ([(⟨k⟩, v)], r4)
                      | _ => none
              | _ => none
      | _ => none

end

/-- The embedding of `JSON.parse` as the consumers' decoder: parse with enough
fuel and require the whole input consumed. -/
def jparse (s : String) : Option JVal :=
  match jvalP (s.data.length + 1) s.data with
  | some (v, []) => some v
  | _ => none

/-- Decode a published frame: a parse producing a two-element array whose
first element is a string gives back the event name and the event data. -/
def decodeFrame (s : String) : Option (String × JVal) :=
  match jparse s with
  | some (.arr [.str e, d]) => some (e, d)
  | _ => none

/-- One `logger` call: the diagnostics the relay signals.  `error` carries the
underlying store failure, `success` carries the emitted frame. -/
inductive LogEntry (ε : Type) where
  | warn (msg : String)
  | success (msg : String) (frame : JVal)
  | error (msg : String) (cause : ε)

/-- The mutable state of one `IO` instance: the transient target room
(`targetRoom`, `null` at construction) and the immutable key prefix. -/
structure Relay where
  targetRoom : Option String
  pref : String

/-- Embedding of the constructor: `options.prefix || "io"` falls back to the
default both when the option is absent and when it is the (falsy) empty
string.  The store URL and token only feed the external Redis handle and are
not part of the relay state. -/
def mkRelay (optPref : Option String) : Relay :=
  { targetRoom := none
    pref := match optPref with
      | some p => if p = "" then "io" else p
      | none => "io" }

/-- Embedding of `formatRoomName`: prefix, colon, room. -/
def Relay.formatRoomName (s : Relay) (room : String) : String :=
  s.pref ++ ":" ++ room

/-- Embedding of `to(room)`: warn on an empty room, store the room as the new
target either way.  Returns the updated state and the diagnostics signalled. -/
def Relay.to {ε : Type} (s : Relay) (room : String) : Relay × List (LogEntry ε) :=
  ({ s with targetRoom := some room },
   if room = "" then [.warn "Empty room name provided to IO.to()"] else [])

/-- Everything one `emit` call does: the state it leaves behind, the publish
calls it made (key, payload), the diagnostics it signalled, and the failure it
re-raised, if any. -/
structure EmitResult (ε : Type) where
  state : Relay
  published : List (String × String)
  logs : List (LogEntry ε)
  thrown : Option ε

/-- Embedding of `emit(event, data)`.  `if (!this.targetRoom)` is JavaScript
truthiness: both `null` and the empty string take the warn-and-return branch.
The `finally` block clears `targetRoom` on every path. -/
def Relay.emit {ε : Type} (s : Relay) (pub : String → String → Except ε Unit)
    (event : String) (data : JVal) : EmitResult ε :=
  match s.targetRoom with
  | none =>
      { state := { s with targetRoom := none }
        published := []
        logs := [.warn "IO emit called without setting a target room first"]
        thrown := none }
  | some room =>
      if room = "" then
        { state := { s with targetRoom := none }
          published := []
          logs := [.warn "IO emit called without setting a target room first"]
          thrown := none }
      else
        let roomName := s.formatRoomName room
        let payload := stringify (.arr [.str event, data])
        match pub roomName payload with
        | Except.ok _ =>
            { state := { s with targetRoom := none }
              published := [(roomName, payload)]
              logs := [.success ("IO emitted to room \"" ++ room ++ "\":")
                         (.arr [.str event, data])]
              thrown := none }
        | Except.error e =>
            { state := { s with targetRoom := none }
              published := [(roomName, payload)]
              logs := [.error "Failed to emit event" e]
              thrown := some e }

/-- Everything one `getClientsInRoom` call does: the state after the call, the
membership keys queried, the client list returned, and the diagnostics.  The
whole-body `try`/`catch` swallows every store failure, so there is no `thrown`
component: the call always returns. -/
structure QueryResult (ε : Type) where
  state : Relay
  queried : List String
  clients : List String
  logs : List (LogEntry ε)

/-- Embedding of `getClientsInRoom(room)`: query the `prefix:room:clients` set;
on a store failure log the error and return the empty list. -/
def Relay.getClientsInRoom {ε : Type} (s : Relay)
    (smem : String → Except ε (List String)) (room : String) : QueryResult ε :=
  let roomName := s.formatRoomName room
  match smem (roomName ++ ":clients") with
  | Except.ok clients =>
      { state := s, queried := [roomName ++ ":clients"], clients := clients, logs := [] }
  | Except.error e =>
      { state := s
        queried := [roomName ++ ":clients"]
        clients := []
        logs := [.error ("Failed to get clients in room \"" ++ room ++ "\"") e] }

/-! ### Round-trip of the JSON codec: character- and digit-level lemmas -/

theorem hexVal_hexChar (k : Nat) (h : k < 16) : hexVal (hexChar k) = some k := by
  interval_cases k <;> decide

theorem isDig_digitChar (d : Nat) (h : d < 10) : isDig (digitChar d) = true := by
  interval_cases d <;> decide

theorem sub48_digitChar (d : Nat) (h : d < 10) : (digitChar d).toNat - 48 = d := by
  interval_cases d <;> decide

/-- Decoding one escaped character undoes `jescape`. -/
theorem strBody_escape (c : Char) (rest : List Char) :
    strBody (jescape c ++ rest) = (strBody rest).map fun p => (c :: p.1, p.2) := by
  by_cases h1 : c = '"'
  · subst h1; rfl
  by_cases h2 : c = '\\'
  · subst h2; rfl
  by_cases h3 : c = '\x08'
  · subst h3; rfl
  by_cases h4 : c = '\x0c'
  · subst h4; rfl
  by_cases h5 : c = '\n'
  · subst h5; rfl
  by_cases h6 : c = '\r'
  · subst h6; rfl
  by_cases h7 : c = '\t'
  · subst h7; rfl
  by_cases h8 : c.toNat < 32
  · have hesc : jescape c
        = ['\\', 'u', '0', '0', hexChar (c.toNat / 16), hexChar (c.toNat % 16)] := by
      simp [jescape, h1, h2, h3, h4, h5, h6, h7, h8]
    rw [hesc]
    show strBody
        ('\\' :: 'u' :: '0' :: '0' :: hexChar (c.toNat / 16) :: hexChar (c.toNat % 16) :: rest)
      = _
    simp only [strBody, hexVal_hexChar (c.toNat / 16) (by omega),
      hexVal_hexChar (c.toNat % 16) (by omega),
      show hexVal '0' = some 0 from rfl]
    have harith : ((0 * 16 + 0) * 16 + c.toNat / 16) * 16 + c.toNat % 16 = c.toNat := by
      omega
    rw [harith, Char.ofNat_toNat]
  · have hesc : jescape c = [c] := by
      simp [jescape, h1, h2, h3, h4, h5, h6, h7, h8]
    rw [hesc]
    show strBody (c :: rest) = _
    rw [strBody.eq_def]
    split <;> simp_all

/-- Decoding the escaped rendering of a character list stops exactly at the
closing quote and recovers the list. -/
theorem strBody_encoded (cs : List Char) : ∀ rest : List Char,
    strBody (cs.flatMap jescape ++ '"' :: rest) = some (cs, rest) := by
  induction cs with
  | nil => intro rest; rfl
  | cons c t ih =>
      intro rest
      rw [List.flatMap_cons, List.append_assoc, strBody_escape, ih]
      rfl

theorem natChars_all_digits (n : Nat) : ∀ c ∈ natChars n, isDig c = true := by
  intro c hc
  by_cases h : n = 0
  · subst h
    rw [show natChars 0 = ['0'] from rfl, List.mem_singleton] at hc
    subst hc
    decide
  · simp only [natChars, if_neg h, List.mem_map, List.mem_reverse] at hc
    obtain ⟨d, hd, rfl⟩ := hc
    exact isDig_digitChar d (Nat.digits_lt_base (by norm_num) hd)

theorem digSpan_stop (cs : List Char) (h : numStop cs = true) : digSpan cs = ([], cs) := by
  match cs with
  | [] => rfl
  | c :: t =>
      simp only [numStop, Bool.not_eq_true'] at h
      simp [digSpan, h]

/-- The splitter `digSpan` consumes exactly a leading digit run. -/
theorem digSpan_run (ds : List Char) (hds : ∀ c ∈ ds, isDig c = true) (rest : List Char)
    (hr : numStop rest = true) : digSpan (ds ++ rest) = (ds, rest) := by
  induction ds with
  | nil => simpa using digSpan_stop rest hr
  | cons c t ih =>
      have hc := hds c (by simp)
      simp [digSpan, hc, ih fun x hx => hds x (by simp [hx])]

theorem digsVal_natChars (n : Nat) : digsVal (natChars n) = n := by
  by_cases h : n = 0
  · subst h; decide
  · simp only [natChars, if_neg h, digsVal, List.map_map]
    have hmap : ∀ l : List Nat, (∀ d ∈ l, d < 10) →
        l.map ((fun c => c.toNat - 48) ∘ digitChar) = l := by
      intro l
      induction l with
      | nil => intro _; rfl
      | cons d t iht =>
          intro hl
          simp only [List.map_cons, Function.comp_apply,
            sub48_digitChar d (hl d (by simp)), iht fun x hx => hl x (by simp [hx])]
    rw [hmap _ fun d hd => Nat.digits_lt_base (by norm_num) (List.mem_reverse.mp hd),
        List.reverse_reverse, Nat.ofDigits_digits]

theorem natChars_ne_nil (n : Nat) : natChars n ≠ [] := by
  by_cases h : n = 0
  · subst h; simp [natChars]
  · simp [natChars, h, Nat.digits_ne_nil_iff_ne_zero]

theorem natChars_head (n : Nat) : ∃ c t, natChars n = c :: t ∧ isDig c = true := by
  match h : natChars n with
  | [] => exact absurd h (natChars_ne_nil n)
  | c :: t =>
      refine ⟨c, t, rfl, natChars_all_digits n c ?_⟩
      rw [h]
      exact List.mem_cons_self c t

theorem natSpan_natChars (n : Nat) (rest : List Char) (hr : numStop rest = true) :
    natSpan (natChars n ++ rest) = some (n, rest) := by
  obtain ⟨c, t, hct, _⟩ := natChars_head n
  rw [natSpan, digSpan_run (natChars n) (natChars_all_digits n) rest hr, hct]
  show some (digsVal (c :: t), rest) = some (n, rest)
  rw [← hct, digsVal_natChars]

/-- A digit character is none of the characters the parser dispatches on. -/
theorem isDig_char_facts (c : Char) (h : isDig c = true) :
    c ≠ 'n' ∧ c ≠ 't' ∧ c ≠ 'f' ∧ c ≠ '"' ∧ c ≠ '[' ∧ c ≠ '\x7b' ∧ c ≠ '-'
    ∧ c ≠ ']' ∧ c ≠ '\x7d' := by
  refine ⟨?_, ?_, ?_, ?_, ?_, ?_, ?_, ?_, ?_⟩ <;>
    (intro hc; subst hc; exact absurd h (by decide))

/-- On input headed by a digit, the parser takes its number branch. -/
theorem jvalP_digit (f : Nat) (c : Char) (t : List Char) (h : isDig c = true) :
    jvalP (f + 1) (c :: t) = (natSpan (c :: t)).map fun p => (.num (p.1 : Int), p.2) := by
  obtain ⟨hn, ht, hf, hq, hbk, hbc, hm, _, _⟩ := isDig_char_facts c h
  simp only [jvalP, if_neg hn, if_neg ht, if_neg hf, if_neg hq, if_neg hbk, if_neg hbc,
    if_neg hm]

/-- Parsing a serialized integer recovers it, provided what follows cannot
extend the digit run. -/
theorem jvalP_num (n : Int) (f : Nat) (rest : List Char) (hr : numStop rest = true) :
    jvalP (f + 1) (intChars n ++ rest) = some (.num n, rest) := by
  by_cases hneg : n < 0
  · rw [show intChars n = '-' :: natChars n.natAbs from by simp [intChars, hneg],
        List.cons_append]
    show (natSpan (natChars n.natAbs ++ rest)).map _ = _
    rw [natSpan_natChars _ _ hr]
    have habs : -((n.natAbs : Nat) : Int) = n := by omega
    simp only [Option.map_some']
    rw [habs]
  · obtain ⟨c, t, hct, hdig⟩ := natChars_head n.natAbs
    rw [show intChars n = natChars n.natAbs from by simp [intChars, hneg], hct,
        List.cons_append, jvalP_digit f c _ hdig, ← List.cons_append, ← hct,
        natSpan_natChars _ _ hr]
    have habs : ((n.natAbs : Nat) : Int) = n := by omega
    simp only [Option.map_some']
    rw [habs]

/-- Every serialized value starts with a character that closes neither an
array nor an object. -/
theorem jvalChars_head (v : JVal) :
    ∃ c t, jvalChars v = c :: t ∧ c ≠ ']' ∧ c ≠ '\x7d' := by
  match v with
  | .null => exact ⟨'n', _, rfl, by decide, by decide⟩
  | .bool true => exact ⟨'t', _, rfl, by decide, by decide⟩
  | .bool false => exact ⟨'f', _, rfl, by decide, by decide⟩
  | .str s => exact ⟨'"', _, rfl, by decide, by decide⟩
  | .arr es => exact ⟨'[', _, rfl, by decide, by decide⟩
  | .obj ms => exact ⟨'\x7b', _, rfl, by decide, by decide⟩
  | .num n =>
      by_cases hneg : n < 0
      · exact ⟨'-', natChars n.natAbs,
          by simp [jvalChars, intChars, hneg], by decide, by decide⟩
      · obtain ⟨c, t, hct, hdig⟩ := natChars_head n.natAbs
        obtain ⟨_, _, _, _, _, _, _, hrb, hrc⟩ := isDig_char_facts c hdig
        exact ⟨c, t, by simp [jvalChars, intChars, hneg, hct], hrb, hrc⟩

/-- The parser's array branch on a nonempty element list hands over to `arrP`. -/
theorem jvalP_arr_step (f : Nat) (c : Char) (t : List Char) (hc : c ≠ ']') :
    jvalP (f + 1) ('[' :: c :: t) = (arrP f (c :: t)).map fun p => (.arr p.1, p.2) := by
  show ((match c :: t with
    | ']' :: r2 => some (JVal.arr [], r2)
    | _ => (arrP f (c :: t)).map fun p => (JVal.arr p.1, p.2)) : Option (JVal × List Char)) = _
  split
  · rename_i r2 heq
    exact absurd (List.cons.inj heq).1 hc
  · rfl

/-- The parser's object branch on a nonempty member list hands over to `objP`. -/
theorem jvalP_obj_step (f : Nat) (c : Char) (t : List Char) (hc : c ≠ '\x7d') :
    jvalP (f + 1) ('\x7b' :: c :: t) = (objP f (c :: t)).map fun p => (.obj p.1, p.2) := by
  show ((match c :: t with
    | '\x7d' :: r2 => some (JVal.obj [], r2)
    | _ => (objP f (c :: t)).map fun p => (JVal.obj p.1, p.2)) : Option (JVal × List Char)) = _
  split
  · rename_i r2 heq
    exact absurd (List.cons.inj heq).1 hc
  · rfl

/-- On a nonempty list, `arrChars` renders the first element followed by
the comma-separated rest. -/
theorem arrChars_cons (x : JVal) (xs : List JVal) :
    arrChars (x :: xs)
      = jvalChars x ++ (match xs with | [] => [] | w :: vs => ',' :: arrChars (w :: vs)) := by
  match xs with
  | [] => simp [arrChars]
  | w :: vs => rfl

/-- On a nonempty list, `objChars` renders the first key literal, a colon,
the first value, then the comma-separated rest. -/
theorem objChars_cons (k : String) (v : JVal) (ms : List (String × JVal)) :
    objChars ((k, v) :: ms)
      = jstrLit k ++ ':' :: jvalChars v
          ++ (match ms with | [] => [] | m :: tl => ',' :: objChars (m :: tl)) := by
  match ms with
  | [] => simp [objChars]
  | m :: tl => simp [objChars]

mutual

/-- Parsing a serialized value recovers it, for any continuation that cannot
extend a number and any sufficient fuel. -/
theorem rtV : ∀ (v : JVal) (fuel : Nat) (rest : List Char),
    (jvalChars v).length < fuel → numStop rest = true →
    jvalP fuel (jvalChars v ++ rest) = some (v, rest)
  | .null, fuel, rest, hf, _ => by
      cases fuel with
      | zero => exact absurd hf (by omega)
      | succ f => rfl
  | .bool true, fuel, rest, hf, _ => by
      cases fuel with
      | zero => exact absurd hf (by omega)
      | succ f => rfl
  | .bool false, fuel, rest, hf, _ => by
      cases fuel with
      | zero => exact absurd hf (by omega)
      | succ f => rfl
  | .num n, fuel, rest, hf, hr => by
      cases fuel with
      | zero => exact absurd hf (by omega)
      | succ f =>
          have h : jvalChars (.num n) = intChars n := by simp [jvalChars]
          rw [h]
          exact jvalP_num n f rest hr
  | .str s, fuel, rest, hf, _ => by
      cases fuel with
      | zero => exact absurd hf (by omega)
      | succ f =>
          simp only [jvalChars, jstrLit, List.cons_append, List.append_assoc,
            List.singleton_append]
          have hstep : ∀ X, jvalP (f + 1) ('"' :: X)
              = (strBody X).map fun p => (JVal.str ⟨p.1⟩, p.2) := fun X => rfl
          rw [hstep, strBody_encoded]
          rfl
  | .arr [], fuel, rest, hf, _ => by
      cases fuel with
      | zero => exact absurd hf (by omega)
      | succ f =>
          simp only [jvalChars, arrChars, List.nil_append, List.cons_append,
            List.singleton_append]
          rfl
  | .arr (x :: xs), fuel, rest, hf, _ => by
      cases fuel with
      | zero => exact absurd hf (by omega)
      | succ f =>
          have hlen : (arrChars (x :: xs)).length + 1 < f := by
            simp only [jvalChars, List.length_cons, List.length_append,
              List.length_singleton] at hf
            omega
          simp only [jvalChars, List.cons_append, List.append_assoc,
            List.singleton_append, List.nil_append]
          obtain ⟨c, t, hct, hcb, _⟩ := jvalChars_head x
          obtain ⟨t', ht'⟩ : ∃ t', arrChars (x :: xs) = c :: t' := by
            rw [arrChars_cons, hct]
            exact ⟨_, rfl⟩
          rw [ht', List.cons_append, jvalP_arr_step f c _ hcb, ← List.cons_append, ← ht',
              rtArr x xs f rest hlen]
          rfl
  | .obj [], fuel, rest, hf, _ => by
      cases fuel with
      | zero => exact absurd hf (by omega)
      | succ f =>
          simp only [jvalChars, objChars, List.nil_append, List.cons_append,
            List.singleton_append]
          rfl
  | .obj ((k, v) :: ms), fuel, rest, hf, _ => by
      cases fuel with
      | zero => exact absurd hf (by omega)
      | succ f =>
          have hlen : (objChars ((k, v) :: ms)).length + 1 < f := by
            simp only [jvalChars, List.length_cons, List.length_append,
              List.length_singleton] at hf
            omega
          simp only [jvalChars, List.cons_append, List.append_assoc,
            List.singleton_append, List.nil_append]
          have hhead : ∃ t', objChars ((k, v) :: ms) = '"' :: t' := by
            rw [objChars_cons]
            simp only [jstrLit, List.cons_append]
            exact ⟨_, rfl⟩
          obtain ⟨t', ht'⟩ := hhead
          rw [ht', List.cons_append, jvalP_obj_step f '"' _ (by decide), ← List.cons_append,
              ← ht', rtObj (k, v) ms f rest hlen]
          rfl

termination_by v _ _ _ _ => sizeOf v

/-- Parsing the serialized elements of a nonempty array, up to the closing
bracket, recovers the elements. -/
theorem rtArr : ∀ (x : JVal) (xs : List JVal) (fuel : Nat) (rest : List Char),
    (arrChars (x :: xs)).length + 1 < fuel →
    arrP fuel (arrChars (x :: xs) ++ ']' :: rest) = some (x :: xs, rest)
  | x, [], fuel, rest, hf => by
      cases fuel with
      | zero => exact absurd hf (by omega)
      | succ f =>
          have hx : arrChars [x] = jvalChars x := by simp [arrChars]
          rw [hx] at hf ⊢
          have hv := rtV x f (']' :: rest) (by omega) rfl
          simp only [arrP]
          rw [hv]
          rfl
  | x, y :: ys, fuel, rest, hf => by
      cases fuel with
      | zero => exact absurd hf (by omega)
      | succ f =>
          have hsplit : arrChars (x :: y :: ys) = jvalChars x ++ ',' :: arrChars (y :: ys) :=
            rfl
          rw [hsplit] at hf ⊢
          have hlenx : (jvalChars x).length < f := by
            simp only [List.length_append, List.length_cons] at hf
            omega
          have hleny : (arrChars (y :: ys)).length + 1 < f := by
            simp only [List.length_append, List.length_cons] at hf
            omega
          rw [List.append_assoc, List.cons_append]
          have hv := rtV x f (',' :: (arrChars (y :: ys) ++ ']' :: rest)) hlenx rfl
          simp only [arrP]
          rw [hv]
          show (arrP f (arrChars (y :: ys) ++ ']' :: rest)).map _ = _
          rw [rtArr y ys f rest hleny]
          rfl

termination_by x xs _ _ _ => sizeOf x + sizeOf xs

/-- Parsing the serialized members of a nonempty object, up to the closing
brace, recovers the members. -/
theorem rtObj : ∀ (m : String × JVal) (ms : List (String × JVal)) (fuel : Nat)
    (rest : List Char),
    (objChars (m :: ms)).length + 1 < fuel →
    objP fuel (objChars (m :: ms) ++ '\x7d' :: rest) = some (m :: ms, rest)
  | (k, v), [], fuel, rest, hf => by
      cases fuel with
      | zero => exact absurd hf (by omega)
      | succ f =>
          have hm : objChars [(k, v)] = jstrLit k ++ ':' :: jvalChars v := rfl
          rw [hm] at hf ⊢
          have hlenv : (jvalChars v).length < f := by
            simp only [List.length_append, List.length_cons] at hf
            omega
          simp only [jstrLit, List.cons_append, List.append_assoc, List.singleton_append]
          have hv := rtV v f ('\x7d' :: rest) hlenv rfl
          simp only [objP]
          rw [strBody_encoded]
          simp only [List.nil_append, hv]
  | (k, v), m2 :: ms, fuel, rest, hf => by
      cases fuel with
      | zero => exact absurd hf (by omega)
      | succ f =>
          have hm : objChars ((k, v) :: m2 :: ms)
              = jstrLit k ++ ':' :: jvalChars v ++ ',' :: objChars (m2 :: ms) := rfl
          rw [hm] at hf ⊢
          have hlenv : (jvalChars v).length < f := by
            simp only [jstrLit, List.length_append, List.length_cons] at hf
            omega
          have hlenm : (objChars (m2 :: ms)).length + 1 < f := by
            simp only [jstrLit, List.length_append, List.length_cons] at hf
            omega
          simp only [jstrLit, List.cons_append, List.append_assoc, List.singleton_append]
          have hv := rtV v f (',' :: (objChars (m2 :: ms) ++ '\x7d' :: rest)) hlenv rfl
          simp only [objP]
          rw [strBody_encoded]
          simp only [List.nil_append, hv]
          show (objP f (objChars (m2 :: ms) ++ '\x7d' :: rest)).map _ = _
          rw [rtObj m2 ms f rest hlenm]
          rfl
termination_by m ms _ _ _ => sizeOf m + sizeOf ms

end

/-! ### Helper lemmas about the relay -/

/-- Every branch of `emit` (warn, success, failure) leaves the state with the
target room cleared: the `finally` block. -/
theorem emit_state_clears (ε : Type) (pub : String → String → Except ε Unit)
    (s : Relay) (e : String) (d : JVal) :
    (s.emit pub e d).state = { s with targetRoom := none } := by
  obtain ⟨t, p⟩ := s
  cases t with
  | none => rfl
  | some room =>
      by_cases h : room = ""
      · simp [Relay.emit, h]
      · simp only [Relay.emit, if_neg h]
        split <;> rfl

/-- A targeted `emit` on a nonempty room makes exactly one publish call, to the
formatted room key, with the serialized `[event, data]` frame — whether or not
the store call then fails. -/
theorem emit_targeted_published (ε : Type) (pub : String → String → Except ε Unit)
    (p r e : String) (d : JVal) (h : r ≠ "") :
    (Relay.emit ⟨some r, p⟩ pub e d).published
      = [(p ++ ":" ++ r, stringify (.arr [.str e, d]))] := by
  simp only [Relay.emit, if_neg h, Relay.formatRoomName]
  split <;> rfl

/-- Formatted keys determine the room: `p ++ ":" ++ r` is injective in `r`. -/
theorem formatted_key_inj (p r1 r2 : String) (h : p ++ ":" ++ r1 = p ++ ":" ++ r2) :
    r1 = r2 := by
  have h2 := congrArg String.data h
  simp only [String.data_append] at h2
  exact congrArg String.mk (List.append_cancel_left h2)

/-! ### Claim theorems (relay state machine and error handling) -/

/-- C1: after every `emit` call — warn branch, successful publish, or failing
publish — the target room is `none`, so a second `emit` without an intervening
`to` publishes nothing, throws nothing, and only warns; this holds for every
state of the instance. -/
theorem emit_resets_target (ε : Type) (pub pub2 : String → String → Except ε Unit)
    (s : Relay) (e e2 : String) (d d2 : JVal) :
    (s.emit pub e d).state.targetRoom = none
    ∧ ((s.emit pub e d).state.emit pub2 e2 d2).published = []
    ∧ ((s.emit pub e d).state.emit pub2 e2 d2).thrown = none
    ∧ ((s.emit pub e d).state.emit pub2 e2 d2).logs
        = [.warn "IO emit called without setting a target room first"] := by
  rw [emit_state_clears]
  obtain ⟨t, p⟩ := s
  exact ⟨rfl, rfl, rfl, rfl⟩

/-- C3: `emit` on an instance with no target room set warns, publishes nothing,
throws nothing, and leaves the instance untargeted. -/
theorem emit_untargeted_noop (ε : Type) (pub : String → String → Except ε Unit)
    (p e : String) (d : JVal) :
    Relay.emit ⟨none, p⟩ pub e d
      = { state := ⟨none, p⟩
          published := []
          logs := [.warn "IO emit called without setting a target room first"]
          thrown := none } := rfl

/-- C10: `options.prefix || "io"` defaults the prefix both for an absent option
and for the falsy empty string, so no instance ever has an empty prefix. -/
theorem falsy_prefix_defaults (o : Option String) :
    (mkRelay (some "")).pref = "io"
    ∧ (mkRelay none).pref = "io"
    ∧ 0 < (mkRelay o).pref.length := by
  refine ⟨rfl, rfl, ?_⟩
  match o with
  | none => decide
  | some p =>
      by_cases h : p = ""
      · subst h; decide
      · simp only [mkRelay, if_neg h]
        have hd : p.data ≠ [] := fun hd => h (congrArg String.mk hd)
        exact List.length_pos.mpr hd

/-- C2: the publish key a targeted `emit` uses is exactly
`prefix ++ ":" ++ room` (`formatRoomName`), and the membership key
`getClientsInRoom` queries is exactly `prefix ++ ":" ++ room ++ ":clients"`;
both are pure functions of the prefix and the room. -/
theorem derived_keys (ε : Type) (pub : String → String → Except ε Unit)
    (smem : String → Except ε (List String)) (p r e : String)
    (tr : Option String) (d : JVal) :
    Relay.formatRoomName ⟨tr, p⟩ r = p ++ ":" ++ r
    ∧ (∀ k pl, (k, pl) ∈ (Relay.emit ⟨some r, p⟩ pub e d).published → k = p ++ ":" ++ r)
    ∧ (r ≠ "" → (Relay.emit ⟨some r, p⟩ pub e d).published.map Prod.fst = [p ++ ":" ++ r])
    ∧ (Relay.getClientsInRoom ⟨tr, p⟩ smem r).queried = [p ++ ":" ++ r ++ ":clients"] := by
  refine ⟨rfl, ?_, ?_, ?_⟩
  · intro k pl hmem
    by_cases h : r = ""
    · subst h
      simp [Relay.emit] at hmem
    · rw [emit_targeted_published ε pub p r e d h] at hmem
      simp at hmem
      exact hmem.1
  · intro h
    rw [emit_targeted_published ε pub p r e d h]
    rfl
  · simp only [Relay.getClientsInRoom, Relay.formatRoomName]
    split <;> rfl

/-- C2 witness: with prefix `"io"` and room `"room"`, a targeted emit publishes
to `"io:room"` and the membership query uses `"io:room:clients"`. -/
theorem derived_keys_witness :
    ("room" : String) ≠ ""
    ∧ (Relay.emit ⟨some "room", "io"⟩ (fun _ _ => (Except.ok () : Except Nat Unit))
        "evt" .null).published.map Prod.fst = ["io" ++ ":" ++ "room"] :=
  ⟨by decide,
   (derived_keys Nat (fun _ _ => Except.ok ()) (fun _ => Except.ok []) "io" "room" "evt"
      none .null).2.2.1 (by decide)⟩

/-- C4: when the store's publish call fails, `emit` logs an error diagnostic
carrying that failure, re-raises the same failure, and still clears the target
room; the one publish attempt did go to the derived key. -/
theorem emit_failure_propagates (ε : Type) (pub : String → String → Except ε Unit)
    (p r e : String) (d : JVal) (err : ε) (h : r ≠ "")
    (hp : pub (p ++ ":" ++ r) (stringify (.arr [.str e, d])) = Except.error err) :
    (Relay.emit ⟨some r, p⟩ pub e d).thrown = some err
    ∧ (Relay.emit ⟨some r, p⟩ pub e d).logs = [.error "Failed to emit event" err]
    ∧ (Relay.emit ⟨some r, p⟩ pub e d).state.targetRoom = none
    ∧ (Relay.emit ⟨some r, p⟩ pub e d).published.map Prod.fst = [p ++ ":" ++ r] := by
  simp [Relay.emit, if_neg h, Relay.formatRoomName, hp]

/-- C4 witness: a store that always fails with error `7` makes the targeted
emit re-raise `7`. -/
theorem emit_failure_propagates_witness :
    ("room" : String) ≠ ""
    ∧ (Relay.emit ⟨some "room", "io"⟩ (fun _ _ => (Except.error 7 : Except Nat Unit))
        "evt" .null).thrown = some 7 :=
  ⟨by decide,
   (emit_failure_propagates Nat (fun _ _ => Except.error 7) "io" "room" "evt" .null 7
      (by decide) rfl).1⟩

/-- C5 counterexample: after `to("")` the empty string is stored and the
warning is signalled, but the subsequent `emit` does NOT proceed to publish to
`"io:"` — `if (!this.targetRoom)` treats the stored empty string as falsy, so
the emit warns and publishes nothing. -/
theorem to_empty_emit_counterexample :
    (@Relay.to Nat ⟨none, "io"⟩ "").1.targetRoom = some ""
    ∧ (@Relay.to Nat ⟨none, "io"⟩ "").2 = [.warn "Empty room name provided to IO.to()"]
    ∧ (Relay.emit (@Relay.to Nat ⟨none, "io"⟩ "").1
        (fun _ _ => (Except.ok () : Except Nat Unit)) "evt" .null).published = []
    ∧ (Relay.emit (@Relay.to Nat ⟨none, "io"⟩ "").1
        (fun _ _ => (Except.ok () : Except Nat Unit)) "evt" .null).logs
        = [.warn "IO emit called without setting a target room first"] :=
  ⟨rfl, rfl, rfl, rfl⟩

/-- C5 (amended): `to("")` warns and stores the empty string as the target,
but the subsequent `emit` treats the empty target like an unset one: it warns,
publishes nothing, throws nothing, and clears the target. -/
theorem to_empty_then_emit_noop (ε : Type) (pub : String → String → Except ε Unit)
    (s : Relay) (e : String) (d : JVal) :
    (@Relay.to ε s "").1.targetRoom = some ""
    ∧ (@Relay.to ε s "").2 = [.warn "Empty room name provided to IO.to()"]
    ∧ Relay.emit (@Relay.to ε s "").1 pub e d
        = { state := { s with targetRoom := none }
            published := []
            logs := [.warn "IO emit called without setting a target room first"]
            thrown := none } := by
  obtain ⟨t, p⟩ := s
  exact ⟨rfl, rfl, rfl⟩

/-- C6 counterexample: with `r1 = "a"` and `r2 = ""`, the sequence
`to(r1); to(r2); emit` publishes zero times, not exactly once, because the
overwritten empty target makes the emit a no-op. -/
theorem last_to_wins_counterexample :
    (Relay.emit (@Relay.to Nat (@Relay.to Nat ⟨none, "io"⟩ "a").1 "").1
      (fun _ _ => (Except.ok () : Except Nat Unit)) "evt" .null).published = [] := rfl

/-- C6 (amended): each `to` overwrites any previously set, un-consumed target:
after `to(r1); to(r2)` with `r2` nonempty, `emit` publishes exactly once, to
the key derived from `r2`; when `r1 ≠ r2`, nothing is published to the key
derived from `r1`.  (For empty `r2` the emit publishes nothing at all.) -/
theorem last_to_wins (ε : Type) (pub : String → String → Except ε Unit)
    (s : Relay) (r1 r2 e : String) (d : JVal) (h2 : r2 ≠ "") :
    (Relay.emit (@Relay.to ε (@Relay.to ε s r1).1 r2).1 pub e d).published.map Prod.fst
      = [s.pref ++ ":" ++ r2]
    ∧ (r1 ≠ r2 → ∀ pl,
        (s.pref ++ ":" ++ r1, pl)
          ∉ (Relay.emit (@Relay.to ε (@Relay.to ε s r1).1 r2).1 pub e d).published) := by
  have hst : (@Relay.to ε (@Relay.to ε s r1).1 r2).1 = (⟨some r2, s.pref⟩ : Relay) := rfl
  rw [hst, emit_targeted_published ε pub s.pref r2 e d h2]
  refine ⟨rfl, ?_⟩
  intro h12 pl hmem
  simp only [List.mem_singleton, Prod.mk.injEq] at hmem
  exact h12 (formatted_key_inj s.pref r1 r2 hmem.1)

/-- C6 witness: `to("a"); to("b"); emit` publishes once to `"io:b"` and never
to `"io:a"`. -/
theorem last_to_wins_witness :
    ("b" : String) ≠ "" ∧ ("a" : String) ≠ "b"
    ∧ (Relay.emit (@Relay.to Nat (@Relay.to Nat ⟨none, "io"⟩ "a").1 "b").1
        (fun _ _ => (Except.ok () : Except Nat Unit)) "evt" .null).published.map Prod.fst
        = ["io" ++ ":" ++ "b"]
    ∧ (∀ pl, ("io" ++ ":" ++ "a", pl)
        ∉ (Relay.emit (@Relay.to Nat (@Relay.to Nat ⟨none, "io"⟩ "a").1 "b").1
            (fun _ _ => (Except.ok () : Except Nat Unit)) "evt" .null).published) :=
  ⟨by decide, by decide,
   (last_to_wins Nat (fun _ _ => Except.ok ()) ⟨none, "io"⟩ "a" "b" "evt" .null (by decide)).1,
   (last_to_wins Nat (fun _ _ => Except.ok ()) ⟨none, "io"⟩ "a" "b" "evt" .null (by decide)).2
     (by decide)⟩

/-- C9: `getClientsInRoom` leaves the relay state — in particular the current
target room — unchanged, whatever its prior value, so a
`to(r); getClientsInRoom(q); emit` sequence still publishes to the key derived
from `r`, whatever room `q` was queried. -/
theorem getClients_preserves_target (ε : Type)
    (smem : String → Except ε (List String)) (pub : String → String → Except ε Unit)
    (s : Relay) (q r e : String) (d : JVal) :
    (s.getClientsInRoom smem q).state = s
    ∧ (r ≠ "" →
        (Relay.emit ((@Relay.to ε s r).1.getClientsInRoom smem q).state pub e d).published.map
            Prod.fst
          = [s.pref ++ ":" ++ r]) := by
  have hframe : ∀ s' : Relay, (Relay.getClientsInRoom s' smem q).state = s' := by
    intro s'
    simp only [Relay.getClientsInRoom]
    split <;> rfl
  refine ⟨hframe s, ?_⟩
  intro h
  rw [hframe (@Relay.to ε s r).1,
      show (@Relay.to ε s r).1 = (⟨some r, s.pref⟩ : Relay) from rfl,
      emit_targeted_published ε pub s.pref r e d h]
  rfl

/-- C9 witness: `to("room")`, then a membership query for `"other"`, then
`emit` still publishes to `"io:room"`. -/
theorem getClients_preserves_target_witness :
    ("room" : String) ≠ ""
    ∧ (Relay.emit ((@Relay.to Nat ⟨none, "io"⟩ "room").1.getClientsInRoom
          (fun _ => (Except.ok [] : Except Nat (List String))) "other").state
        (fun _ _ => (Except.ok () : Except Nat Unit)) "evt" .null).published.map Prod.fst
      = ["io" ++ ":" ++ "room"] :=
  ⟨by decide,
   (getClients_preserves_target Nat (fun _ => Except.ok []) (fun _ _ => Except.ok ())
      ⟨none, "io"⟩ "other" "room" "evt" .null).2 (by decide)⟩

/-- C7: `getClientsInRoom` never raises: when the membership query succeeds it
returns exactly the identifiers the store yields (logging nothing); when the
store fails it logs the error, carrying the failure, and returns the empty
sequence. -/
theorem getClients_never_raises (ε : Type) (smem : String → Except ε (List String))
    (s : Relay) (r : String) (l : List String) (err : ε) :
    (smem (s.pref ++ ":" ++ r ++ ":clients") = Except.ok l →
      (s.getClientsInRoom smem r).clients = l ∧ (s.getClientsInRoom smem r).logs = [])
    ∧ (smem (s.pref ++ ":" ++ r ++ ":clients") = Except.error err →
      (s.getClientsInRoom smem r).clients = []
      ∧ (s.getClientsInRoom smem r).logs
          = [.error ("Failed to get clients in room \"" ++ r ++ "\"") err]) := by
  constructor <;> intro h <;>
    simp [Relay.getClientsInRoom, Relay.formatRoomName, h]

/-- C7 witness: the two store behaviors at room `"room"`: a store holding
`["c1"]` yields `["c1"]`; a store failing with `3` yields `[]`. -/
theorem getClients_never_raises_witness :
    ((fun _ => (Except.ok ["c1"] : Except Nat (List String)))
        ("io" ++ ":" ++ "room" ++ ":clients") = Except.ok ["c1"]
      ∧ (Relay.getClientsInRoom ⟨none, "io"⟩
          (fun _ => (Except.ok ["c1"] : Except Nat (List String))) "room").clients = ["c1"])
    ∧ ((fun _ => (Except.error 3 : Except Nat (List String)))
        ("io" ++ ":" ++ "room" ++ ":clients") = Except.error 3
      ∧ (Relay.getClientsInRoom ⟨none, "io"⟩
          (fun _ => (Except.error 3 : Except Nat (List String))) "room").clients = []) :=
  ⟨⟨rfl, ((getClients_never_raises Nat (fun _ => Except.ok ["c1"]) ⟨none, "io"⟩ "room"
      ["c1"] 3).1 rfl).1⟩,
   ⟨rfl, ((getClients_never_raises Nat (fun _ => Except.error 3) ⟨none, "io"⟩ "room"
      ["c1"] 3).2 rfl).1⟩⟩

/-- Parsing a stringified value with the standard fuel recovers the value. -/
theorem jparse_stringify (v : JVal) : jparse (stringify v) = some v := by
  have h := rtV v ((jvalChars v).length + 1) [] (by omega) rfl
  rw [List.append_nil] at h
  simp only [jparse]
  rw [show (stringify v).data = jvalChars v from rfl, h]

/-- Decoding the serialized `[event, data]` frame recovers event and data. -/
theorem decodeFrame_stringify (e : String) (d : JVal) :
    decodeFrame (stringify (.arr [.str e, d])) = some (e, d) := by
  simp only [decodeFrame, jparse_stringify]

/-- C8: the message body a targeted `emit` publishes is the JSON text
serialization of the two-element array `[event, data]`, and decoding that text
recovers the original event name and data, for every JSON-representable
payload (primitives, arrays, nested objects). -/
theorem emit_payload_roundtrip (ε : Type) (pub : String → String → Except ε Unit)
    (p r e : String) (d : JVal) (h : r ≠ "") :
    (Relay.emit ⟨some r, p⟩ pub e d).published.map Prod.snd
      = [stringify (.arr [.str e, d])]
    ∧ decodeFrame (stringify (.arr [.str e, d])) = some (e, d) := by
  rw [emit_targeted_published ε pub p r e d h]
  exact ⟨rfl, decodeFrame_stringify e d⟩

/-- C8 witness: at room `"room"` and event `"evt"` with a nested-object
payload, the published frame decodes back to the event and payload. -/
theorem emit_payload_roundtrip_witness :
    ("room" : String) ≠ ""
    ∧ (Relay.emit ⟨some "room", "io"⟩ (fun _ _ => (Except.ok () : Except Nat Unit))
        "evt" (.obj [("a", .arr [.num 1, .null])])).published.map Prod.snd
      = [stringify (.arr [.str "evt", .obj [("a", .arr [.num 1, .null])]])]
    ∧ decodeFrame (stringify (.arr [.str "evt", .obj [("a", .arr [.num 1, .null])]]))
        = some ("evt", .obj [("a", .arr [.num 1, .null])]) :=
  ⟨by decide,
   (emit_payload_roundtrip Nat (fun _ _ => Except.ok ()) "io" "room" "evt"
      (.obj [("a", .arr [.num 1, .null])]) (by decide)).1,
   (emit_payload_roundtrip Nat (fun _ _ => Except.ok ()) "io" "room" "evt"
      (.obj [("a", .arr [.num 1, .null])]) (by decide)).2⟩

end JStack
